import Mathlib

/-!
A shallow embedding of the `g-root` version-control engine (src/g-root.mjs).

Modelling conventions, each tied to a place in the source:

* The filesystem directory `objects/` is an association list from digest
  strings to stored objects; `fs.writeFile(objects/<digest>, data)`
  overwrites the single file of that name, so writing is replace-or-append
  (`setKey`).  A JavaScript plain object used as a map (`headFiles`,
  `currentFileHashes` in `status`) is the same structure.
* `crypto.createHash("sha1")...digest("hex")` is an opaque deterministic
  function `h : String → String`; `JSON.stringify` of a commit record is an
  opaque serializer `ser : CommitData → String`, and a stored object is the
  tagged value (`GObj.blob` for file contents, `GObj.commitObj` for
  serialized commit records), treating serialize/parse as an identity
  round-trip.
* The `HEAD` file content is a plain `String`; the empty string is the
  initial (no-commit) state, matching JavaScript truthiness tests
  (`while (currentCommitHash)`, `if (commitData.parent)`), under which the
  empty string is falsy.
* `new Date().toISOString()` is an external input `now : String`.
* A `fs.readFile` whose rejection is not caught (a missing object in `log`,
  `getFileContent`) is an error value (`WalkOut.crashed`, `Except.error`);
  the caught read in `getCommitData` produces the `null` that
  `showCommitDiff` turns into its "Commit not found" report.
-/

/-- One staging-area record, `{ path, hash }` as pushed by
`updateStagingArea` (src/g-root.mjs line 133). -/
structure IndexEntry where
  path : String
  hash : String
deriving DecidableEq, Repr

/-- A commit record as built by `commit` (src/g-root.mjs lines 147-152).
`parent` is the raw string read from `HEAD`; `""` is the empty-HEAD case. -/
structure CommitData where
  timeStamp : String
  message : String
  files : List IndexEntry
  parent : String
deriving DecidableEq, Repr

/-- A stored object in `objects/`: either raw file content (written by
`add`) or a serialized commit record (written by `commit`). -/
inductive GObj where
  | blob (content : String)
  | commitObj (data : CommitData)
deriving DecidableEq, Repr

/-- One stash record, `{ timeStamp, files }` as pushed by `stash`
(src/g-root.mjs lines 355-358). -/
structure StashEntry where
  timeStamp : String
  files : List IndexEntry
deriving DecidableEq, Repr

/-- The persisted repository state: the `objects/` directory, and the
`HEAD`, `index` and `stash` files. -/
structure RepoState where
  objects : List (String × GObj)
  head : String
  index : List IndexEntry
  stash : List StashEntry
deriving DecidableEq, Repr

/-- The state `init` creates: empty `objects/`, empty `HEAD`, `[]` index,
`[]` stash (src/g-root.mjs lines 47-51). -/
def initialState : RepoState := ⟨[], "", [], []⟩

/-- Write a value under a string key, overwriting the entry if the key is
present and appending otherwise.  This is both a filesystem write of
`objects/<digest>` (one file per name) and a JavaScript object property
assignment. -/
def setKey {α : Type} : List (String × α) → String → α → List (String × α)
  | [], k, v => [(k, v)]
  | kv :: rest, k, v => if kv.1 = k then (k, v) :: rest else kv :: setKey rest k v

/-- Read a value by string key: filesystem read of `objects/<digest>` or a
JavaScript object property access (`none` = missing file / `undefined`). -/
def getKey {α : Type} : List (String × α) → String → Option α
  | [], _ => none
  | kv :: rest, k => if kv.1 = k then some kv.2 else getKey rest k

/-- The keys (file names) present in a directory / object map. -/
def keys {α : Type} (m : List (String × α)) : List String :=
  m.map (fun kv => kv.1)

/-- Number of entries stored under a key; on a real filesystem directory
this is 0 or 1. -/
def countKey {α : Type} : List (String × α) → String → Nat
  | [], _ => 0
  | kv :: rest, k => (if kv.1 = k then 1 else 0) + countKey rest k

/-- `add(fileToBeAdded)` (src/g-root.mjs lines 116-122): hash the file data,
write the blob to `objects/<hash>`, and append `{ path, hash }` to the
index.  The working-tree read `fs.readFile(fileToBeAdded)` is the argument
`fileData`. -/
def add (h : String → String) (st : RepoState) (fileToBeAdded : String)
    (fileData : String) : RepoState :=
  let fileHash := h fileData
  ⟨setKey st.objects fileHash (GObj.blob fileData), st.head,
    st.index ++ [⟨fileToBeAdded, fileHash⟩], st.stash⟩

/-- The commit record `commit(message)` builds (src/g-root.mjs lines
147-152): timestamp, message, the whole index verbatim, and the current
HEAD as parent. -/
def commitRecord (now : String) (st : RepoState) (message : String) : CommitData :=
  ⟨now, message, st.index, st.head⟩

/-- The digest of the new commit: `hashObject(JSON.stringify(commitData))`
(src/g-root.mjs line 154). -/
def commitHash (h : String → String) (ser : CommitData → String) (now : String)
    (st : RepoState) (message : String) : String :=
  h (ser (commitRecord now st message))

/-- State after the first write of `commit`: the commit object stored at
`objects/<commitHash>` (src/g-root.mjs line 156). -/
def commitStep1 (h : String → String) (ser : CommitData → String) (now : String)
    (st : RepoState) (message : String) : RepoState :=
  ⟨setKey st.objects (commitHash h ser now st message)
      (GObj.commitObj (commitRecord now st message)),
    st.head, st.index, st.stash⟩

/-- State after the second write of `commit`: `HEAD` updated to the new
digest (src/g-root.mjs line 157). -/
def commitStep2 (h : String → String) (ser : CommitData → String) (now : String)
    (st : RepoState) (message : String) : RepoState :=
  ⟨(commitStep1 h ser now st message).objects, commitHash h ser now st message,
    st.index, st.stash⟩

/-- State after the third write of `commit`: the index cleared to `[]`
(src/g-root.mjs line 158). -/
def commitStep3 (h : String → String) (ser : CommitData → String) (now : String)
    (st : RepoState) (message : String) : RepoState :=
  ⟨(commitStep1 h ser now st message).objects, commitHash h ser now st message,
    [], st.stash⟩

/-- `commit(message)` (src/g-root.mjs lines 141-161): final state and the
digest it reports. -/
def commit (h : String → String) (ser : CommitData → String) (now : String)
    (st : RepoState) (message : String) : RepoState × String :=
  (commitStep3 h ser now st message, commitHash h ser now st message)

/-- The intermediate states of `commit`, one per file write, in program
order: object write, HEAD write, index write. -/
def commitTrace (h : String → String) (ser : CommitData → String) (now : String)
    (st : RepoState) (message : String) : List RepoState :=
  [commitStep1 h ser now st message, commitStep2 h ser now st message,
    commitStep3 h ser now st message]

/-- `stash()` (src/g-root.mjs lines 347-364): push `{ timeStamp, files:
index }` onto the stash list and clear the index. -/
def stashOp (now : String) (st : RepoState) : RepoState :=
  ⟨st.objects, st.head, [], st.stash ++ [⟨now, st.index⟩]⟩

/-- Read an object from `objects/<key>`. -/
def readObject (objs : List (String × GObj)) (k : String) : Option GObj :=
  getKey objs k

/-- `getFileContent(fileHash)` (src/g-root.mjs lines 212-215): read
`objects/<fileHash>` as text.  A stored commit record reads back as its
serialization; a missing object makes the uncaught read reject (`none`). -/
def getFileContent (ser : CommitData → String) (objs : List (String × GObj))
    (fileHash : String) : Option String :=
  match readObject objs fileHash with
  | some (GObj.blob c) => some c
  | some (GObj.commitObj cd) => some (ser cd)
  | none => none

/-- Outcome of the `log()` loop (src/g-root.mjs lines 176-190).
`crashed` models the uncaught rejection of `fs.readFile` on a missing
object (or `JSON.parse` of an object that is not a commit record): the
exception propagates out of `log`.  `fuelExhausted` is the artefact of
bounding the `while` loop with fuel; it never occurs with enough fuel. -/
inductive WalkOut where
  | finished (commits : List CommitData)
  | crashed (digest : String)
  | fuelExhausted
deriving DecidableEq, Repr

/-- The `while (currentCommitHash)` loop of `log()` (src/g-root.mjs lines
177-189), bounded by fuel: read `objects/<hash>`, record the commit, move
to its `parent`.  The empty string is falsy, ending the loop. -/
def logWalk (objs : List (String × GObj)) : Nat → String → WalkOut
  | 0, _ => WalkOut.fuelExhausted
  | fuel + 1, hsh =>
    if hsh = "" then WalkOut.finished []
    else
      match readObject objs hsh with
      | none => WalkOut.crashed hsh
      | some (GObj.blob _) => WalkOut.crashed hsh
      | some (GObj.commitObj cd) =>
        match logWalk objs fuel cd.parent with
        | WalkOut.finished rest => WalkOut.finished (cd :: rest)
        | other => other

/-- `log()` itself: walk from the current HEAD. -/
def logRun (st : RepoState) (fuel : Nat) : WalkOut :=
  logWalk st.objects fuel st.head

/-- `getParentFileContent(parentCommitData, filePath)` (src/g-root.mjs
lines 282-290): `Array.prototype.find` takes the FIRST entry whose path
matches; when one is found its blob is read (`Except.error` if that read
rejects), otherwise the function falls through and returns `undefined`
(`Except.ok none`). -/
def getParentFileContent (ser : CommitData → String) (objs : List (String × GObj))
    (parentCommitData : CommitData) (filePath : String) : Except String (Option String) :=
  match parentCommitData.files.find? (fun file => file.path == filePath) with
  | some parentFile =>
    match getFileContent ser objs parentFile.hash with
    | some c => Except.ok (some c)
    | none => Except.error parentFile.hash
  | none => Except.ok none

/-- One output chunk of the `diff` library's `diffLines`: a run of lines
tagged added, removed, or (neither flag) unchanged. -/
structure DiffPart where
  added : Bool
  removed : Bool
  value : String
deriving DecidableEq, Repr

/-- What `showCommitDiff` prints for one file of a commit (src/g-root.mjs
lines 229-273): the file content, and then either the `"First Commit"`
note (falsy parent), the line-level diff hunks (path found in the parent
commit), or the `"New files in this commit"` note (path absent from the
parent commit). -/
inductive FileDiffReport where
  | firstCommit (content : String)
  | hunks (content : String) (parts : List DiffPart)
  | newFile (content : String)
deriving DecidableEq, Repr

/-- The body of the per-file loop of `showCommitDiff` (src/g-root.mjs lines
229-273).  `diffL` is the external `diffLines` library function.  Errors
are uncaught read rejections (missing blob; missing or non-commit parent
object, where `JSON.parse(null).files` throws). -/
def showFileDiff (ser : CommitData → String) (diffL : String → String → List DiffPart)
    (objs : List (String × GObj)) (commitData : CommitData) (file : IndexEntry) :
    Except String FileDiffReport :=
  match getFileContent ser objs file.hash with
  | none => Except.error file.hash
  | some fileContent =>
    if commitData.parent = "" then Except.ok (FileDiffReport.firstCommit fileContent)
    else
      match readObject objs commitData.parent with
      | some (GObj.commitObj parentCommitData) =>
        match getParentFileContent ser objs parentCommitData file.path with
        | Except.ok (some parentContent) =>
          Except.ok (FileDiffReport.hunks fileContent (diffL parentContent fileContent))
        | Except.ok none => Except.ok (FileDiffReport.newFile fileContent)
        | Except.error e => Except.error e
      | _ => Except.error commitData.parent

deriving instance DecidableEq for Except

/-- Top-level outcome of `showCommitDiff(commitHash)` (src/g-root.mjs lines
222-274).  A missing commit object is caught by `getCommitData`, which
returns `null`; `JSON.parse("null")` is falsy, so the command prints
`"Commit not found"` and returns (`commitNotFound`).  An object that is
not a commit record makes `JSON.parse` produce garbage (`parseFailure`). -/
inductive ShowResult where
  | commitNotFound
  | parseFailure
  | report (entries : List (Except String FileDiffReport))
deriving DecidableEq, Repr

/-- `showCommitDiff(commitHash)` (src/g-root.mjs lines 222-274). -/
def showCommitDiff (ser : CommitData → String) (diffL : String → String → List DiffPart)
    (st : RepoState) (commitHash : String) : ShowResult :=
  match readObject st.objects commitHash with
  | none => ShowResult.commitNotFound
  | some (GObj.blob _) => ShowResult.parseFailure
  | some (GObj.commitObj commitData) =>
    ShowResult.report (commitData.files.map (showFileDiff ser diffL st.objects commitData))

/-- JavaScript truthiness of `headFiles[file]` in `status` (src/g-root.mjs
line 336): `undefined` and the empty string are falsy. -/
def jsFalsy : Option String → Bool
  | none => true
  | some s => s = ""

/-- The three path lists `status()` prints, in output order: `"Changes to
be committed"`, `"Changes not staged for commit"`, `"Untracked files"`. -/
structure StatusReport where
  staged : List String
  notStaged : List String
  untracked : List String
deriving DecidableEq, Repr

/-- `status()` (src/g-root.mjs lines 295-341).  The working tree
(`getAllFiles` plus the per-file reads) is the argument `wt`, a list of
(path, content) pairs.  `headFiles` is the object built by `reduce`
(later entries overwrite earlier ones); `currentFileHashes` likewise.
Staged: every index entry.  Not staged: a working-tree file with no index
entry of that path whose current hash differs (JavaScript `!==`, where
`undefined !== hash` is true) from `headFiles[file]`.  Untracked: a
working-tree file with no index entry of that path and falsy
`headFiles[file]`.  `Except.error` models the crash when HEAD names a
missing or non-commit object (`JSON.parse(null).files` throws). -/
def statusRun (h : String → String) (wt : List (String × String)) (st : RepoState) :
    Except String StatusReport :=
  match (if st.head = "" then Except.ok []
    else
      match readObject st.objects st.head with
      | some (GObj.commitObj cd) => Except.ok cd.files
      | _ => Except.error st.head : Except String (List IndexEntry)) with
  | Except.error e => Except.error e
  | Except.ok headList =>
    let headFiles := headList.foldl (fun acc f => setKey acc f.path f.hash) []
    let currentFileHashes := wt.foldl (fun acc pc => setKey acc pc.1 (h pc.2)) []
    let currentFiles := wt.map (fun pc => pc.1)
    Except.ok
      ⟨st.index.map (fun file => file.path),
        currentFiles.filter (fun file =>
          (st.index.find? (fun stagedFile => stagedFile.path == file)).isNone &&
            getKey headFiles file != getKey currentFileHashes file),
        currentFiles.filter (fun file =>
          (st.index.find? (fun stagedFile => stagedFile.path == file)).isNone &&
            jsFalsy (getKey headFiles file))⟩

/-- One commit event in a repository run: the digest assigned to the new
commit, the record stored under it, and the HEAD value read at the start
of that `commit` call. -/
structure CommitEvent where
  digest : String
  data : CommitData
  headBefore : String
deriving DecidableEq, Repr

/-- The digest of the newest commit of a (newest-first) event list, or `""`
when no commit has happened: the value the `HEAD` file holds. -/
def tipDigest : List CommitEvent → String
  | [] => ""
  | e :: _ => e.digest

/-- The parent links down a newest-first event list: each commit's stored
`parent` (and the HEAD read when it was created) is the digest of the
previous commit, `""` at the bottom. -/
def chainOK : List CommitEvent → Prop
  | [] => True
  | e :: rest => e.headBefore = tipDigest rest ∧ e.data.parent = tipDigest rest ∧ chainOK rest

/-- Repository states reachable by runs of the CLI commands, together with
the (newest-first) list of commit events of the run.  The two side
conditions on `commitR` and the one on `addR` record what the sha1 digest
function guarantees in the source: digests are 40-character hex strings
(never `""`), a new commit's serialized record never collides with an
already stored object, and a blob's digest never collides with a commit
digest.  (`status`, `log` and `show` read nothing is mutated, so they do
not appear.) -/
inductive Reach (h : String → String) (ser : CommitData → String) :
    RepoState → List CommitEvent → Prop where
  | init : Reach h ser initialState []
  | addR (st : RepoState) (tr : List CommitEvent) (p c : String)
      (hr : Reach h ser st tr)
      (hfresh : h c ∉ tr.map CommitEvent.digest) :
      Reach h ser (add h st p c) tr
  | commitR (st : RepoState) (tr : List CommitEvent) (now msg : String)
      (hr : Reach h ser st tr)
      (hfresh : commitHash h ser now st msg ∉ keys st.objects)
      (hne : commitHash h ser now st msg ≠ "") :
      Reach h ser (commit h ser now st msg).1
        (⟨commitHash h ser now st msg, commitRecord now st msg, st.head⟩ :: tr)
  | stashR (st : RepoState) (tr : List CommitEvent) (now : String)
      (hr : Reach h ser st tr) :
      Reach h ser (stashOp now st) tr

/-- The inductive invariant tying a reachable state to its commit events:
HEAD points at the newest commit, digests are nonempty and distinct, every
commit record is stored under its digest, and parent links walk the events
oldest-ward. -/
structure ChainInv (st : RepoState) (tr : List CommitEvent) : Prop where
  head_eq : st.head = tipDigest tr
  digests_ne : ∀ e ∈ tr, e.digest ≠ ""
  nodup : (tr.map CommitEvent.digest).Nodup
  stored : ∀ e ∈ tr, readObject st.objects e.digest = some (GObj.commitObj e.data)
  chain : chainOK tr

/-- A concrete digest function standing in for sha1 in closed instances:
any deterministic function fits the opaque-hash convention. -/
def hConc : String → String := fun s => "#" ++ s

/-- A concrete commit serializer standing in for `JSON.stringify` in
closed instances. -/
def serConc : CommitData → String := fun cd => cd.message ++ "|" ++ cd.parent

/-- State after a first commit "m1" at time "t1" on a fresh repository. -/
def stateOne : RepoState := (commit hConc serConc "t1" initialState "m1").1

/-- State after a second commit "m2" at time "t2". -/
def stateTwo : RepoState := (commit hConc serConc "t2" stateOne "m2").1

/-- The commit event of the first commit of the two-commit run. -/
def eventOne : CommitEvent :=
  ⟨commitHash hConc serConc "t1" initialState "m1", commitRecord "t1" initialState "m1",
    initialState.head⟩

/-- The commit event of the second commit of the two-commit run. -/
def eventTwo : CommitEvent :=
  ⟨commitHash hConc serConc "t2" stateOne "m2", commitRecord "t2" stateOne "m2",
    stateOne.head⟩

/-- The (newest-first) trace of the two-commit run. -/
def traceTwo : List CommitEvent := [eventTwo, eventOne]

variable {α : Type}

theorem getKey_setKey_self (m : List (String × α)) (k : String) (v : α) :
    getKey (setKey m k v) k = some v := by
  induction m with
  | nil => simp [setKey, getKey]
  | cons kv rest ih =>
    by_cases hk : kv.1 = k
    · simp [setKey, getKey, hk]
    · simp [setKey, getKey, hk, ih]

theorem keys_nil : keys ([] : List (String × α)) = [] := rfl

theorem keys_cons (kv : String × α) (rest : List (String × α)) :
    keys (kv :: rest) = kv.1 :: keys rest := rfl

theorem getKey_setKey_ne (m : List (String × α)) (k k' : String) (v : α)
    (hne : k' ≠ k) : getKey (setKey m k v) k' = getKey m k' := by
  have hne' : ¬k = k' := fun h => hne h.symm
  induction m with
  | nil => simp [setKey, getKey, hne']
  | cons kv rest ih =>
    by_cases hk : kv.1 = k
    · simp [setKey, getKey, hk, hne']
    · simp only [setKey, if_neg hk, getKey]
      by_cases hk' : kv.1 = k'
      · simp [hk']
      · simp [hk', ih]

theorem keys_setKey_mem (m : List (String × α)) (k : String) (v : α)
    (h : k ∈ keys m) : keys (setKey m k v) = keys m := by
  induction m with
  | nil => simp [keys_nil] at h
  | cons kv rest ih =>
    by_cases hk : kv.1 = k
    · simp [setKey, hk, keys_cons]
    · rw [keys_cons, List.mem_cons] at h
      rcases h with h1 | h2
      · exact absurd h1.symm hk
      · simp only [setKey, if_neg hk, keys_cons, ih h2]

theorem keys_setKey_notmem (m : List (String × α)) (k : String) (v : α)
    (h : k ∉ keys m) : keys (setKey m k v) = keys m ++ [k] := by
  induction m with
  | nil => simp [setKey, keys]
  | cons kv rest ih =>
    rw [keys_cons, List.mem_cons] at h
    push_neg at h
    have hk : ¬kv.1 = k := fun hc => h.1 hc.symm
    simp only [setKey, if_neg hk, keys_cons, ih h.2, List.cons_append]

theorem keys_setKey_nodup (m : List (String × α)) (k : String) (v : α)
    (hnd : (keys m).Nodup) : (keys (setKey m k v)).Nodup := by
  by_cases hmem : k ∈ keys m
  · rw [keys_setKey_mem m k v hmem]
    exact hnd
  · rw [keys_setKey_notmem m k v hmem]
    refine List.Nodup.append hnd (List.nodup_singleton k) ?_
    intro a ha hb
    rw [List.mem_singleton] at hb
    exact hmem (hb ▸ ha)

theorem countKey_eq_zero (m : List (String × α)) (k : String)
    (hk : k ∉ keys m) : countKey m k = 0 := by
  induction m with
  | nil => rfl
  | cons kv rest ih =>
    rw [keys_cons, List.mem_cons] at hk
    push_neg at hk
    have hne : ¬kv.1 = k := fun hc => hk.1 hc.symm
    simp only [countKey, if_neg hne, Nat.zero_add]
    exact ih hk.2

theorem countKey_setKey_self (m : List (String × α)) (k : String) (v : α)
    (hnd : (keys m).Nodup) : countKey (setKey m k v) k = 1 := by
  induction m with
  | nil => simp [setKey, countKey]
  | cons kv rest ih =>
    rw [keys_cons, List.nodup_cons] at hnd
    by_cases hk : kv.1 = k
    · have hknotin : k ∉ keys rest := hk ▸ hnd.1
      simp [setKey, if_pos hk, countKey, countKey_eq_zero rest k hknotin]
    · simp only [setKey, if_neg hk, countKey, if_neg hk, Nat.zero_add]
      exact ih hnd.2

theorem mem_keys_of_getKey_eq_some (m : List (String × α)) (k : String) (v : α)
    (h : getKey m k = some v) : k ∈ keys m := by
  induction m with
  | nil => simp [getKey] at h
  | cons kv rest ih =>
    by_cases hk : kv.1 = k
    · rw [keys_cons]
      exact hk ▸ List.mem_cons_self kv.1 (keys rest)
    · simp only [getKey, if_neg hk] at h
      rw [keys_cons]
      exact List.mem_cons_of_mem _ (ih h)

theorem reach_chainInv {h : String → String} {ser : CommitData → String}
    {st : RepoState} {tr : List CommitEvent} (hr : Reach h ser st tr) :
    ChainInv st tr := by
  induction hr with
  | init =>
    exact ⟨rfl, by simp, by simp, by simp, trivial⟩
  | addR st tr p c hr hfresh ih =>
    refine ⟨ih.head_eq, ih.digests_ne, ih.nodup, ?_, ih.chain⟩
    intro e he
    have hne : e.digest ≠ h c := by
      intro hc
      exact hfresh (hc ▸ List.mem_map_of_mem CommitEvent.digest he)
    have := ih.stored e he
    unfold readObject at this ⊢
    unfold add
    simpa [getKey_setKey_ne st.objects (h c) e.digest _ hne] using this
  | commitR st tr now msg hr hfresh hne ih =>
    have hnotintr : commitHash h ser now st msg ∉ tr.map CommitEvent.digest := by
      intro hc
      rcases List.mem_map.mp hc with ⟨e, he, hd⟩
      exact hfresh (hd ▸ mem_keys_of_getKey_eq_some st.objects e.digest _ (ih.stored e he))
    constructor
    · rfl
    · intro e he
      rcases List.mem_cons.mp he with h1 | h2
      · rw [h1]
        exact hne
      · exact ih.digests_ne e h2
    · rw [List.map_cons, List.nodup_cons]
      exact ⟨hnotintr, ih.nodup⟩
    · intro e he
      rcases List.mem_cons.mp he with h1 | h2
      · rw [h1]
        unfold readObject commit commitStep3 commitStep1
        simpa using getKey_setKey_self st.objects (commitHash h ser now st msg)
          (GObj.commitObj (commitRecord now st msg))
      · have hdne : e.digest ≠ commitHash h ser now st msg := by
          intro hc
          exact hnotintr (hc ▸ List.mem_map_of_mem CommitEvent.digest h2)
        have := ih.stored e h2
        unfold readObject at this ⊢
        unfold commit commitStep3 commitStep1
        simpa [getKey_setKey_ne st.objects (commitHash h ser now st msg) e.digest _ hdne]
          using this
    · exact ⟨ih.head_eq, ih.head_eq, ih.chain⟩
  | stashR st tr now hr ih =>
    exact ⟨ih.head_eq, ih.digests_ne, ih.nodup, ih.stored, ih.chain⟩

theorem logWalk_chain (objs : List (String × GObj)) (tr : List CommitEvent)
    (hstored : ∀ e ∈ tr, readObject objs e.digest = some (GObj.commitObj e.data))
    (hne : ∀ e ∈ tr, e.digest ≠ "")
    (hchain : chainOK tr) :
    ∀ fuel, tr.length < fuel →
      logWalk objs fuel (tipDigest tr) = WalkOut.finished (tr.map CommitEvent.data) := by
  induction tr with
  | nil =>
    intro fuel hf
    cases fuel with
    | zero => omega
    | succ f => simp [logWalk, tipDigest]
  | cons e rest ih =>
    intro fuel hf
    cases fuel with
    | zero => omega
    | succ f =>
      have hne0 : e.digest ≠ "" := hne e (List.mem_cons_self e rest)
      have hstored0 : readObject objs e.digest = some (GObj.commitObj e.data) :=
        hstored e (List.mem_cons_self e rest)
      have hparent : e.data.parent = tipDigest rest := hchain.2.1
      have hrec : logWalk objs f (tipDigest rest) = WalkOut.finished (rest.map CommitEvent.data) :=
        ih (fun e' he' => hstored e' (List.mem_cons_of_mem e he'))
          (fun e' he' => hne e' (List.mem_cons_of_mem e he')) hchain.2.2 f
          (by simpa using Nat.lt_of_succ_lt_succ hf)
      have htip : tipDigest (e :: rest) = e.digest := rfl
      rw [htip]
      simp only [logWalk, if_neg hne0, hstored0, hparent, hrec, List.map_cons]

theorem find?_first {β : Type} (p : β → Bool) (l1 l2 : List β) (x : β)
    (h1 : ∀ e ∈ l1, p e = false) (hx : p x = true) :
    (l1 ++ x :: l2).find? p = some x := by
  induction l1 with
  | nil => simp [List.find?, hx]
  | cons a rest ih =>
    have ha : p a = false := h1 a (List.mem_cons_self a rest)
    rw [List.cons_append, List.find?_cons_of_neg _ (by simp [ha])]
    exact ih (fun e he => h1 e (List.mem_cons_of_mem a he))

theorem reach_traceTwo : Reach hConc serConc stateTwo traceTwo :=
  Reach.commitR stateOne [eventOne] "t2" "m2"
    (Reach.commitR initialState [] "t1" "m1" Reach.init (by decide) (by decide))
    (by decide) (by decide)

theorem chainOK_parent_spec (tr : List CommitEvent) (hchain : chainOK tr)
    (hne : ∀ e ∈ tr, e.digest ≠ "") :
    ∀ i (hi : i < tr.length),
      (tr[i].data.parent = "" ↔ i + 1 = tr.length) ∧
      tr[i].data.parent = tr[i].headBefore := by
  induction tr with
  | nil =>
    intro i hi
    exact absurd hi (by simp)
  | cons e rest ih =>
    intro i hi
    cases i with
    | zero =>
      have hparent : e.data.parent = tipDigest rest := hchain.2.1
      have hhb : e.headBefore = tipDigest rest := hchain.1
      cases rest with
      | nil =>
        refine ⟨?_, ?_⟩
        · simp [hparent, tipDigest]
        · simp only [List.getElem_cons_zero]
          rw [hparent, hhb]
      | cons e2 rest2 =>
        have hne2 : e2.digest ≠ "" :=
          hne e2 (List.mem_cons_of_mem e (List.mem_cons_self e2 rest2))
        refine ⟨?_, ?_⟩
        · simp only [List.getElem_cons_zero]
          rw [hparent]
          have htip : tipDigest (e2 :: rest2) = e2.digest := rfl
          rw [htip]
          simp only [List.length_cons]
          constructor
          · intro hc
            exact absurd hc hne2
          · intro hc
            omega
        · simp only [List.getElem_cons_zero]
          rw [hparent, hhb]
    | succ j =>
      have hj : j < rest.length := by simpa using Nat.lt_of_succ_lt_succ hi
      have hrest := ih hchain.2.2
        (fun e2 he2 => hne e2 (List.mem_cons_of_mem e he2)) j hj
      simp only [List.getElem_cons_succ]
      refine ⟨?_, hrest.2⟩
      rw [hrest.1]
      simp only [List.length_cons]
      omega

/-- C1: after `commit(message)` the stored commit record's `files` is
verbatim the index read at the start of the call, the final index is
empty, HEAD holds the new commit's digest, and at every intermediate
state of the commit's write sequence — in particular at the last write,
which is the one clearing the index file — the commit object is already
stored under its digest. -/
theorem commit_files_verbatim (h : String → String) (ser : CommitData → String)
    (now : String) (st : RepoState) (message : String) :
    (commit h ser now st message).1.index = [] ∧
    (commit h ser now st message).1.head = (commit h ser now st message).2 ∧
    readObject (commit h ser now st message).1.objects (commit h ser now st message).2 =
      some (GObj.commitObj ⟨now, message, st.index, st.head⟩) ∧
    (∀ s ∈ commitTrace h ser now st message,
      readObject s.objects (commit h ser now st message).2 =
        some (GObj.commitObj ⟨now, message, st.index, st.head⟩)) := by
  refine ⟨rfl, rfl, ?_, ?_⟩
  · exact getKey_setKey_self st.objects (commitHash h ser now st message)
      (GObj.commitObj (commitRecord now st message))
  · intro s hs
    have hkey := getKey_setKey_self st.objects (commitHash h ser now st message)
      (GObj.commitObj (commitRecord now st message))
    rcases List.mem_cons.mp hs with h1 | hs2
    · rw [h1]
      exact hkey
    · rcases List.mem_cons.mp hs2 with h2 | hs3
      · rw [h2]
        exact hkey
      · rcases List.mem_cons.mp hs3 with h3 | hs4
        · rw [h3]
          exact hkey
        · exact absurd hs4 (List.not_mem_nil s)

/-- C1 witness: the commit object is present at each of the three write
steps on a concrete one-entry index. -/
theorem commit_files_verbatim_witness :
    readObject (commitStep1 hConc serConc "t9" ⟨[], "", [⟨"a", "#x"⟩], []⟩ "m9").objects
        (commit hConc serConc "t9" ⟨[], "", [⟨"a", "#x"⟩], []⟩ "m9").2 =
      some (GObj.commitObj ⟨"t9", "m9", [⟨"a", "#x"⟩], ""⟩) ∧
    (commit hConc serConc "t9" ⟨[], "", [⟨"a", "#x"⟩], []⟩ "m9").1.index = [] :=
  ⟨(commit_files_verbatim hConc serConc "t9" ⟨[], "", [⟨"a", "#x"⟩], []⟩ "m9").2.2.2
      (commitStep1 hConc serConc "t9" ⟨[], "", [⟨"a", "#x"⟩], []⟩ "m9")
      (List.mem_cons_self _ _),
    (commit_files_verbatim hConc serConc "t9" ⟨[], "", [⟨"a", "#x"⟩], []⟩ "m9").1⟩

/-- C9: `stash()` appends exactly one `{timestamp, files: index}` entry at
the end of the stash log, clears the index to empty, and leaves HEAD and
every stored object of the Object Store unchanged. -/
theorem stash_frame (now : String) (st : RepoState) :
    (stashOp now st).stash = st.stash ++ [⟨now, st.index⟩] ∧
    (stashOp now st).stash.length = st.stash.length + 1 ∧
    (stashOp now st).index = [] ∧
    (stashOp now st).head = st.head ∧
    (stashOp now st).objects = st.objects ∧
    (∀ d, readObject (stashOp now st).objects d = readObject st.objects d) :=
  ⟨rfl, by simp [stashOp], rfl, rfl, rfl, fun _ => rfl⟩

/-- C10: `commit` has no guard against an empty staging area: committing
with `[]` staged succeeds, stores a commit record whose `files` is the
empty sequence, and advances HEAD to the new digest. -/
theorem commit_empty_index (h : String → String) (ser : CommitData → String)
    (now : String) (st : RepoState) (message : String) (hidx : st.index = []) :
    readObject (commit h ser now st message).1.objects (commit h ser now st message).2 =
      some (GObj.commitObj ⟨now, message, [], st.head⟩) ∧
    (commit h ser now st message).1.head = (commit h ser now st message).2 := by
  refine ⟨?_, rfl⟩
  have hrec : (⟨now, message, [], st.head⟩ : CommitData) = commitRecord now st message := by
    rw [commitRecord, hidx]
  rw [hrec]
  exact getKey_setKey_self st.objects (commitHash h ser now st message)
    (GObj.commitObj (commitRecord now st message))

/-- C10 witness: an empty commit on a fresh repository. -/
theorem commit_empty_index_witness :
    readObject (commit hConc serConc "t0" initialState "m0").1.objects
        (commit hConc serConc "t0" initialState "m0").2 =
      some (GObj.commitObj ⟨"t0", "m0", [], ""⟩) ∧
    (commit hConc serConc "t0" initialState "m0").1.head =
      (commit hConc serConc "t0" initialState "m0").2 :=
  commit_empty_index hConc serConc "t0" initialState "m0" rfl

/-- C5: equal contents give equal digests, the blob is retrievable after
either store, and after `add`-ing the same content twice exactly one
object file exists under that digest (both writes target the same
`objects/<digest>` path). -/
theorem add_content_addressing (h : String → String) (st : RepoState)
    (p1 p2 c1 c2 : String) (heq : c1 = c2) (hnd : (keys st.objects).Nodup) :
    h c1 = h c2 ∧
    readObject (add h st p1 c1).objects (h c1) = some (GObj.blob c1) ∧
    readObject (add h (add h st p1 c1) p2 c2).objects (h c2) = some (GObj.blob c2) ∧
    countKey (add h (add h st p1 c1) p2 c2).objects (h c1) = 1 := by
  subst heq
  refine ⟨rfl, ?_, ?_, ?_⟩
  · exact getKey_setKey_self st.objects (h c1) (GObj.blob c1)
  · exact getKey_setKey_self (add h st p1 c1).objects (h c1) (GObj.blob c1)
  · exact countKey_setKey_self (add h st p1 c1).objects (h c1) (GObj.blob c1)
      (keys_setKey_nodup st.objects (h c1) (GObj.blob c1) hnd)

/-- C5 witness: staging the same content under two paths on a fresh
repository stores it once. -/
theorem add_content_addressing_witness :
    hConc "x" = hConc "x" ∧
    readObject (add hConc initialState "a.txt" "x").objects (hConc "x") =
      some (GObj.blob "x") ∧
    readObject (add hConc (add hConc initialState "a.txt" "x") "b.txt" "x").objects
        (hConc "x") = some (GObj.blob "x") ∧
    countKey (add hConc (add hConc initialState "a.txt" "x") "b.txt" "x").objects
      (hConc "x") = 1 :=
  add_content_addressing hConc initialState "a.txt" "b.txt" "x" "x" rfl List.Pairwise.nil

/-- C3: in every reachable repository, a stored commit's `parent` field is
the empty string — the serialization of an empty HEAD, the spec's null —
exactly when it is the first (oldest) commit of the history, and every
commit's `parent` is precisely the digest HEAD held when that commit was
created. -/
theorem parent_empty_iff_first (h : String → String) (ser : CommitData → String)
    (st : RepoState) (tr : List CommitEvent) (hr : Reach h ser st tr) :
    ∀ i (hi : i < tr.length),
      (tr[i].data.parent = "" ↔ i + 1 = tr.length) ∧
      tr[i].data.parent = tr[i].headBefore := by
  have hinv := reach_chainInv hr
  exact chainOK_parent_spec tr hinv.chain hinv.digests_ne

/-- C3 witness: in the two-commit run, the older commit's parent is empty
and the newer commit's parent is the HEAD read at its creation, not
empty. -/
theorem parent_empty_iff_first_witness :
    eventOne.data.parent = "" ∧ eventTwo.data.parent ≠ "" ∧
    eventTwo.data.parent = eventTwo.headBefore := by
  have h1 := parent_empty_iff_first hConc serConc stateTwo traceTwo reach_traceTwo 1
    (by decide)
  have h0 := parent_empty_iff_first hConc serConc stateTwo traceTwo reach_traceTwo 0
    (by decide)
  refine ⟨?_, ?_, ?_⟩
  · have := h1.1.mpr (by decide)
    simpa [traceTwo] using this
  · intro hc
    have h2 := h0.1.mp (by simpa [traceTwo] using hc)
    exact absurd h2 (by decide)
  · simpa [traceTwo] using h0.2

/-- C6: in any reachable repository, `log` walks the parent pointers from
HEAD and terminates as soon as the fuel exceeds the number of commits,
yielding exactly the run's commits newest-first (the trace order, whose
parent links descend through previously assigned distinct digests to the
empty terminator, `chainOK`); when HEAD is empty it yields the empty
sequence without error. -/
theorem log_terminates (h : String → String) (ser : CommitData → String)
    (st : RepoState) (tr : List CommitEvent) (hr : Reach h ser st tr) :
    (∀ fuel, tr.length < fuel →
      logRun st fuel = WalkOut.finished (tr.map CommitEvent.data)) ∧
    chainOK tr ∧
    (st.head = "" → tr = []) ∧
    (st.head = "" → ∀ fuel, 0 < fuel → logRun st fuel = WalkOut.finished []) := by
  have hinv := reach_chainInv hr
  refine ⟨?_, hinv.chain, ?_, ?_⟩
  · intro fuel hf
    unfold logRun
    rw [hinv.head_eq]
    exact logWalk_chain st.objects tr hinv.stored hinv.digests_ne hinv.chain fuel hf
  · intro hh
    cases htr : tr with
    | nil => rfl
    | cons e rest =>
      have h3 : st.head = tipDigest (e :: rest) := by
        have h4 := hinv.head_eq
        rw [htr] at h4
        exact h4
      have hdig : e.digest = "" := by
        have h5 : tipDigest (e :: rest) = "" := by
          rw [← h3]
          exact hh
        simpa [tipDigest] using h5
      exact absurd hdig (hinv.digests_ne e (htr ▸ List.mem_cons_self e rest))
  · intro hh fuel hf
    cases fuel with
    | zero => omega
    | succ f =>
      unfold logRun
      rw [hh]
      simp [logWalk]

/-- C6 witness: on the two-commit run, `log` with fuel 3 yields the two
commits newest-first. -/
theorem log_terminates_witness :
    logRun stateTwo 3 = WalkOut.finished [eventTwo.data, eventOne.data] ∧
    chainOK traceTwo := by
  have h := log_terminates hConc serConc stateTwo traceTwo reach_traceTwo
  refine ⟨?_, h.2.1⟩
  have := h.1 3 (by decide)
  simpa [traceTwo] using this

/-- C2 (code bug): on a fresh repository (empty HEAD, empty index) with one
working-tree file, `status` lists the path under BOTH "Changes not staged
for commit" and "Untracked files": the modified-unstaged test
`headFiles[file] !== currentFileHashes[file]` is satisfied by a path with
no HEAD entry (`undefined !== hash`), so the buckets are not mutually
exclusive as the spec's status partition requires. -/
theorem status_overlap_on_untracked :
    statusRun hConc [("a.txt", "hello")] initialState =
      Except.ok ⟨[], ["a.txt"], ["a.txt"]⟩ := by
  rfl

/-- C8 (code bug for `log`): with HEAD naming a digest whose object is
missing, `show` takes the caught-read path and reports "Commit not found"
(report-and-stop), but `log`'s uncaught `fs.readFile` rejection
propagates out of the loop — a crash, not a report.  Both operations are
read-only, so repository state is untouched by construction. -/
theorem log_crash_on_missing_object :
    showCommitDiff serConc (fun _ _ => []) ⟨[], "d0", [], []⟩ "d0" =
      ShowResult.commitNotFound ∧
    logRun ⟨[], "d0", [], []⟩ 5 = WalkOut.crashed "d0" := by
  exact ⟨rfl, rfl⟩

/-- C4 counterexample: with duplicate entries for path "p" (hash "h1" for
blob "A" first, hash "h2" for blob "B" last), resolution returns the
FIRST entry's blob "A" — not the last entry's blob "B" as the claim
states. -/
theorem getParentFileContent_not_last :
    getParentFileContent serConc [("h1", GObj.blob "A"), ("h2", GObj.blob "B")]
        ⟨"t", "m", [⟨"p", "h1"⟩, ⟨"p", "h2"⟩], ""⟩ "p" = Except.ok (some "A") ∧
    getParentFileContent serConc [("h1", GObj.blob "A"), ("h2", GObj.blob "B")]
        ⟨"t", "m", [⟨"p", "h1"⟩, ⟨"p", "h2"⟩], ""⟩ "p" ≠ Except.ok (some "B") := by
  exact ⟨rfl, by decide⟩

/-- C4 amended: `getParentFileContent` returns the blob content of the
FIRST entry in `commit.files` whose path matches (`Array.prototype.find`),
so with duplicate entries the first one wins and later duplicates are
ignored; it returns absent (`undefined`, here `.ok none`) when no entry in
the commit's file list has that path. -/
theorem getParentFileContent_first_match (ser : CommitData → String)
    (objs : List (String × GObj)) (pcd : CommitData) (fp : String) :
    (∀ l1 pf l2 c, pcd.files = l1 ++ pf :: l2 → (∀ e ∈ l1, e.path ≠ fp) →
      pf.path = fp → getFileContent ser objs pf.hash = some c →
      getParentFileContent ser objs pcd fp = Except.ok (some c)) ∧
    ((∀ e ∈ pcd.files, e.path ≠ fp) →
      getParentFileContent ser objs pcd fp = Except.ok none) := by
  constructor
  · intro l1 pf l2 c hsplit hl1 hpf hcontent
    have hfind : pcd.files.find? (fun file => file.path == fp) = some pf := by
      rw [hsplit]
      exact find?_first (fun file => file.path == fp) l1 l2 pf
        (fun e he => by simpa using hl1 e he) (by simpa using hpf)
    unfold getParentFileContent
    rw [hfind]
    simp [hcontent]
  · intro hnone
    have hfind : pcd.files.find? (fun file => file.path == fp) = none := by
      rw [List.find?_eq_none]
      intro e he
      simpa using hnone e he
    unfold getParentFileContent
    rw [hfind]

/-- C4 amended witness: on the duplicate-entry commit, the first entry's
blob "A" is returned. -/
theorem getParentFileContent_first_match_witness :
    getParentFileContent serConc [("h1", GObj.blob "A"), ("h2", GObj.blob "B")]
        ⟨"t", "m", [⟨"p", "h1"⟩, ⟨"p", "h2"⟩], ""⟩ "p" = Except.ok (some "A") :=
  (getParentFileContent_first_match serConc
      [("h1", GObj.blob "A"), ("h2", GObj.blob "B")]
      ⟨"t", "m", [⟨"p", "h1"⟩, ⟨"p", "h2"⟩], ""⟩ "p").1
    [] ⟨"p", "h1"⟩ [⟨"p", "h2"⟩] "A" rfl (fun e he => absurd he (List.not_mem_nil e))
    rfl rfl

/-- C7: for a commit with a truthy (non-empty) parent resolving to a commit
record, a file whose path has no entry in that parent commit produces the
whole-file `newFile` signal; the line diff is never consulted (the result
is identical for every diff function), and a `hunks` result is possible
only when the parent commit does contain an entry for the path. -/
theorem showFileDiff_newFile (ser : CommitData → String)
    (diffL : String → String → List DiffPart) (objs : List (String × GObj))
    (cd : CommitData) (f : IndexEntry) (pcd : CommitData) (c : String)
    (hpar : cd.parent ≠ "")
    (hread : readObject objs cd.parent = some (GObj.commitObj pcd))
    (hcontent : getFileContent ser objs f.hash = some c) :
    ((∀ e ∈ pcd.files, e.path ≠ f.path) →
      showFileDiff ser diffL objs cd f = Except.ok (FileDiffReport.newFile c) ∧
      ∀ diffL2, showFileDiff ser diffL2 objs cd f = showFileDiff ser diffL objs cd f) ∧
    (∀ parts, showFileDiff ser diffL objs cd f = Except.ok (FileDiffReport.hunks c parts) →
      ∃ e ∈ pcd.files, e.path = f.path) := by
  constructor
  · intro hnone
    have hgpfc : getParentFileContent ser objs pcd f.path = Except.ok none :=
      (getParentFileContent_first_match ser objs pcd f.path).2 hnone
    constructor
    · unfold showFileDiff
      rw [hcontent]
      simp only [if_neg hpar]
      rw [hread]
      simp [hgpfc]
    · intro diffL2
      unfold showFileDiff
      rw [hcontent]
      simp only [if_neg hpar]
      rw [hread]
      simp [hgpfc]
  · intro parts hres
    rcases hfind : pcd.files.find? (fun file => file.path == f.path) with _ | pf
    · exfalso
      have hgpfc : getParentFileContent ser objs pcd f.path = Except.ok none := by
        unfold getParentFileContent
        rw [hfind]
      unfold showFileDiff at hres
      rw [hcontent] at hres
      simp only [if_neg hpar] at hres
      rw [hread] at hres
      simp [hgpfc] at hres
    · refine ⟨pf, List.mem_of_find?_eq_some hfind, ?_⟩
      have := List.find?_some hfind
      simpa using this

/-- C7 witness: a second commit containing `b.txt`, absent from the parent
commit, reports `newFile` with the blob content. -/
theorem showFileDiff_newFile_witness :
    (∀ e ∈ (⟨"t1", "m1", [⟨"a.txt", "#A"⟩], ""⟩ : CommitData).files, e.path ≠ "b.txt") ∧
    showFileDiff serConc (fun _ _ => [])
        [("P", GObj.commitObj ⟨"t1", "m1", [⟨"a.txt", "#A"⟩], ""⟩), ("#B", GObj.blob "B")]
        ⟨"t2", "m2", [⟨"b.txt", "#B"⟩], "P"⟩ ⟨"b.txt", "#B"⟩ =
      Except.ok (FileDiffReport.newFile "B") := by
  have hmain := showFileDiff_newFile serConc (fun _ _ => [])
    [("P", GObj.commitObj ⟨"t1", "m1", [⟨"a.txt", "#A"⟩], ""⟩), ("#B", GObj.blob "B")]
    ⟨"t2", "m2", [⟨"b.txt", "#B"⟩], "P"⟩ ⟨"b.txt", "#B"⟩
    ⟨"t1", "m1", [⟨"a.txt", "#A"⟩], ""⟩ "B" (by decide) rfl rfl
  exact ⟨by decide, (hmain.1 (by decide)).1⟩
